import Mathlib

/-!
Verification of the context-compaction and conversation-retrieval core of
shellbot2 (files `src/shellbot2/context_compaction.py` and
`src/shellbot2/message_history.py`), via a shallow embedding.

Modelling conventions:
* Python strings are modelled as `List Char` (`Str`), so Python `len` is
  `List.length` and slicing is modelled by `pyTake` / `pyDrop` below, which
  reproduce Python's clamping and negative-index semantics exactly
  (including the `s[-0:] = s` quirk).
* Python `float` arithmetic is modelled over `ℚ`; the operations used by the
  source (add, mul, div, max, comparisons) are exact on the rationals.
* Python `int` is `ℤ`; `//` is `Int.fdiv` (floor division) and `int(q)`
  applied to a nonnegative-denominator rational truncates toward zero
  (`ratTrunc`).
* JSON message dicts are modelled structurally: a part is a `part_kind` and
  an optional string `content` (a missing or non-string field is `none`),
  a message is a list of parts plus an optional top-level `content`.
  `deepcopy` of an immutable value is the identity in this embedding.
-/

namespace Shellbot

abbrev Str := List Char

/-- Python slice index normalisation for a sequence of length `L`:
a negative index `k` counts from the end (clamped at 0), a nonnegative
index is clamped at `L`. -/
def pyIdx (L : ℕ) (k : ℤ) : ℕ :=
  if k < 0 then L - k.natAbs else min L k.toNat

/-- Python `s[:k]`. -/
def pyTake (l : List α) (k : ℤ) : List α := l.take (pyIdx l.length k)

/-- Python `s[k:]`. -/
def pyDrop (l : List α) (k : ℤ) : List α := l.drop (pyIdx l.length k)

/-- Python `int(q)` for a rational: truncation toward zero.  On a normalised
rational `num / den` (with `den > 0`) this is `num.tdiv den`. -/
def ratTrunc (q : ℚ) : ℤ := q.num.tdiv q.den

/-- One entry of a message's `parts` list (`context_compaction.py` reads only
`part_kind` and `content`; a missing or non-string field is `none`). -/
structure Part where
  part_kind : Option String
  content : Option Str
deriving DecidableEq, Repr

/-- A model message dict: its `parts` list and optional top-level `content`
string (the only fields `context_compaction.py` reads or writes). -/
structure Message where
  parts : List Part
  content : Option Str
deriving DecidableEq, Repr

/-- An interaction as consumed by `compact_recent_interactions`: an object
exposing an ordered `.messages` payload list. -/
structure Interaction where
  messages : List Message
deriving DecidableEq, Repr

/-- `ContextCompactionConfig` from `context_compaction.py`. -/
structure ContextCompactionConfig where
  burden_threshold : ℚ
  base_weight : ℚ
  weight_growth : ℚ
  interior_min_length : ℤ
  final_min_length : ℤ
  preserve_head_chars : ℤ
  preserve_tail_chars : ℤ
  truncation_marker : Str
  max_total_length : ℤ
deriving DecidableEq, Repr

/-- Default configuration values of `ContextCompactionConfig`. -/
def defaultConfig : ContextCompactionConfig :=
  { burden_threshold := 80000
    base_weight := 1
    weight_growth := 35 / 100
    interior_min_length := 700
    final_min_length := 3500
    preserve_head_chars := 240
    preserve_tail_chars := 240
    truncation_marker := "\n\n... message truncated ...\n\n".data
    max_total_length := 60000 }

/-- `_message_has_user_prompt` (context_compaction.py lines 42-49). -/
def _message_has_user_prompt (message : Message) : Bool :=
  message.parts.any (fun part => part.part_kind == some "user-prompt")

/-- `_truncate_text` (context_compaction.py lines 52-58):
`text[:head_chars] + marker + text[-tail_chars:]` once the text exceeds
`max(0,head)+max(0,tail)+len(marker)`, otherwise the text unchanged. -/
def _truncate_text (text : Str) (head_chars tail_chars : ℤ) (marker : Str) : Str :=
  if text = [] then text
  else
    let min_visible : ℤ := max 0 head_chars + max 0 tail_chars
    if (text.length : ℤ) ≤ min_visible + marker.length then text
    else pyTake text head_chars ++ marker ++ pyDrop text (-tail_chars)

/-- `_message_text_length` (lines 61-74): sum of the lengths of all string
`content` fields of the parts plus the top-level `content`. -/
def _message_text_length (message : Message) : ℕ :=
  (message.parts.map (fun part => (part.content.map List.length).getD 0)).sum
    + (message.content.map List.length).getD 0

/-- `_truncate_message_content_fields` (lines 77-105), as a pure function
returning the updated copy: every string `content` field inside `parts` and
the top-level `content` is passed through `_truncate_text`. -/
def _truncate_message_content_fields (message : Message)
    (head_chars tail_chars : ℤ) (marker : Str) : Message :=
  { parts := message.parts.map (fun part =>
      { part with content :=
          part.content.map (fun c => _truncate_text c head_chars tail_chars marker) })
    content :=
      message.content.map (fun c => _truncate_text c head_chars tail_chars marker) }

/-- `_dynamic_cutoff` (lines 108-118). -/
def _dynamic_cutoff (interior_min_length : ℤ) (burden_ratio : ℚ) : ℤ :=
  let ratio_for_cutoff : ℚ := max (1/4) burden_ratio
  let cutoff := ratTrunc ((interior_min_length : ℚ) / ratio_for_cutoff)
  let cutoff := max (Int.fdiv interior_min_length 2) cutoff
  min (interior_min_length * 4) cutoff

/-- Interior pass of `_compact_interaction_messages` (lines 126-140): the
index loop `for i in range(1, len(messages)-1)`, expressed as an indexed map
(`mapIdxFrom f l n` applies `f` with indices starting at `n`). -/
def mapIdxFrom (f : ℕ → α → α) : List α → ℕ → List α
  | [], _ => []
  | a :: l, n => f n a :: mapIdxFrom f l (n + 1)

/-- Whether the interior loop truncates the message at index `i` of a list of
length `len` (lines 127-134). -/
def interiorTruncCond (len : ℕ) (i : ℕ) (m : Message) (burden_ratio : ℚ)
    (config : ContextCompactionConfig) : Prop :=
  1 ≤ i ∧ i < len - 1 ∧ ¬(_message_has_user_prompt m = true) ∧
    _dynamic_cutoff config.interior_min_length burden_ratio ≤ (_message_text_length m : ℤ)

instance (len i : ℕ) (m : Message) (r : ℚ) (c : ContextCompactionConfig) :
    Decidable (interiorTruncCond len i m r c) := by
  unfold interiorTruncCond; infer_instance

/-- The interior pass (lines 126-140). -/
def _compact_interior (messages : List Message) (burden_ratio : ℚ)
    (config : ContextCompactionConfig) : List Message :=
  if 3 ≤ messages.length then
    mapIdxFrom (fun i m =>
      if interiorTruncCond messages.length i m burden_ratio config then
        _truncate_message_content_fields m
          config.preserve_head_chars config.preserve_tail_chars config.truncation_marker
      else m) messages 0
  else messages

/-- The final-message pass of `_compact_interaction_messages` (lines 142-152). -/
def _apply_final_truncation (messages : List Message) (burden_ratio : ℚ)
    (config : ContextCompactionConfig) : List Message :=
  match messages.getLast? with
  | none => messages
  | some last_message =>
    if ¬(_message_has_user_prompt last_message = true) ∧
        config.final_min_length ≤ (_message_text_length last_message : ℤ) ∧
        1 ≤ burden_ratio then
      messages.dropLast ++
        [_truncate_message_content_fields last_message
          config.preserve_head_chars config.preserve_tail_chars config.truncation_marker]
    else messages

/-- `_compact_interaction_messages` (lines 121-152): the interior loop followed
by the final-message check (the two touch disjoint indices, since the interior
loop stops before the last index). -/
def _compact_interaction_messages (messages : List Message) (burden_ratio : ℚ)
    (config : ContextCompactionConfig) : List Message :=
  _apply_final_truncation (_compact_interior messages burden_ratio config)
    burden_ratio config

/-- Text length of one interaction: `sum(_message_text_length(msg) for msg in messages)`. -/
def interactionTextLength (interaction : Interaction) : ℕ :=
  (interaction.messages.map _message_text_length).sum

/-- Total text length of a compacted message list. -/
def totalTextLength (messages : List Message) : ℕ :=
  (messages.map _message_text_length).sum

/-- Burden update of one loop step (line 186):
`burden += max(0.0, weight) * interaction_len` with
`weight = base_weight + weight_growth * reverse_idx` (line 184). -/
def burdenStep (config : ContextCompactionConfig) (burden : ℚ) (reverse_idx : ℕ)
    (interaction : Interaction) : ℚ :=
  burden + max 0 (config.base_weight + config.weight_growth * reverse_idx)
    * interactionTextLength interaction

/-- `burden_ratio = burden / threshold` with `threshold = max(1.0, burden_threshold)`
(lines 172 and 187). -/
def burdenRatio (config : ContextCompactionConfig) (burden : ℚ) : ℚ :=
  burden / max 1 config.burden_threshold

/-- The compacted copy of one interaction's messages as produced by one loop
step (lines 183-193): the burden is first updated by `burdenStep`, and the
resulting `burden_ratio` drives `_compact_interaction_messages`. -/
def stepCompacted (config : ContextCompactionConfig) (burden : ℚ)
    (reverse_idx : ℕ) (interaction : Interaction) : List Message :=
  _compact_interaction_messages interaction.messages
    (burdenRatio config (burdenStep config burden reverse_idx interaction)) config

/-- The main loop of `compact_recent_interactions` (lines 182-201), processing
the reversed (newest-first) interaction list while threading `reverse_idx`,
`burden` and `total_length`; it stops (keeping the interaction just processed)
once `total_length > max_total_length`. -/
def compactLoop (config : ContextCompactionConfig) :
    List Interaction → ℕ → ℚ → ℤ → List (List Message)
  | [], _, _, _ => []
  | interaction :: rest, reverse_idx, burden, total_length =>
    if config.max_total_length <
        total_length + (totalTextLength (stepCompacted config burden reverse_idx interaction) : ℤ) then
      [stepCompacted config burden reverse_idx interaction]
    else
      stepCompacted config burden reverse_idx interaction ::
        compactLoop config rest (reverse_idx + 1)
          (burdenStep config burden reverse_idx interaction)
          (total_length + (totalTextLength (stepCompacted config burden reverse_idx interaction) : ℤ))

/-- The per-interaction compacted message lists, oldest-to-newest (lines
169-204 without the final flatten). -/
def compactInteractions (interactions : List Interaction)
    (config : ContextCompactionConfig) : List (List Message) :=
  (compactLoop config interactions.reverse 0 0 0).reverse

/-- `compact_recent_interactions` (lines 155-205). -/
def compact_recent_interactions (interactions : List Interaction)
    (config : ContextCompactionConfig) : List Message :=
  if interactions = [] then []
  else (compactInteractions interactions config).flatten

/-! ### Basic facts about `_truncate_text` -/

/-- A text at most `max(0,head)+max(0,tail)+len(marker)` long is returned unchanged. -/
theorem truncate_short {head_chars tail_chars : ℤ} {text marker : Str}
    (h : (text.length : ℤ) ≤ max 0 head_chars + max 0 tail_chars + marker.length) :
    _truncate_text text head_chars tail_chars marker = text := by
  unfold _truncate_text
  split
  · rfl
  · simp only [if_pos h]

/-- In the truncating branch the output length is exactly
`head.toNat + len(marker) + tail.toNat`. -/
theorem truncate_length_eq {head_chars tail_chars : ℤ} {text marker : Str}
    (h0 : 0 ≤ head_chars) (t1 : 1 ≤ tail_chars)
    (hlong : max 0 head_chars + max 0 tail_chars + marker.length < (text.length : ℤ)) :
    (_truncate_text text head_chars tail_chars marker).length
      = head_chars.toNat + marker.length + tail_chars.toNat := by
  have hne : text ≠ [] := by
    intro h; subst h; simp at hlong; omega
  unfold _truncate_text
  simp only [if_neg hne, if_neg (not_le.mpr hlong)]
  simp only [List.length_append, pyTake, pyDrop, List.length_take, List.length_drop, pyIdx]
  have hh : max 0 head_chars = head_chars := max_eq_right h0
  have ht : max 0 tail_chars = tail_chars := max_eq_right (by omega)
  rw [hh, ht] at hlong
  have hneg : -tail_chars < 0 := by omega
  rw [if_neg (by omega : ¬ head_chars < 0), if_pos hneg]
  omega

/-- With a nonnegative head and positive tail, truncation never lengthens the text. -/
theorem truncate_length_le {head_chars tail_chars : ℤ} (text marker : Str)
    (h0 : 0 ≤ head_chars) (t1 : 1 ≤ tail_chars) :
    (_truncate_text text head_chars tail_chars marker).length ≤ text.length := by
  by_cases h : (text.length : ℤ) ≤ max 0 head_chars + max 0 tail_chars + marker.length
  · rw [truncate_short h]
  · rw [truncate_length_eq h0 t1 (by omega)]
    have hh : max 0 head_chars = head_chars := max_eq_right h0
    have ht : max 0 tail_chars = tail_chars := max_eq_right (by omega)
    omega

/-- With a nonnegative head and positive tail, `_truncate_text` is idempotent. -/
theorem truncate_idem {head_chars tail_chars : ℤ} (text marker : Str)
    (h0 : 0 ≤ head_chars) (t1 : 1 ≤ tail_chars) :
    _truncate_text (_truncate_text text head_chars tail_chars marker)
        head_chars tail_chars marker
      = _truncate_text text head_chars tail_chars marker := by
  by_cases h : (text.length : ℤ) ≤ max 0 head_chars + max 0 tail_chars + marker.length
  · rw [truncate_short h, truncate_short h]
  · apply truncate_short
    rw [truncate_length_eq h0 t1 (by omega)]
    have hh : max 0 head_chars = head_chars := max_eq_right h0
    have ht : max 0 tail_chars = tail_chars := max_eq_right (by omega)
    omega

/-! ### C5: truncation boundary -/

/-- C5: truncating a text of length `L` with head 240, tail 240 and a marker of
length `M` yields length exactly `240+M+240` when `L > 240+240+M`, and yields
the text unchanged when `L ≤ 240+240+M`. -/
theorem C5_truncation_boundary (text marker : Str) :
    (480 + marker.length < text.length →
      (_truncate_text text 240 240 marker).length = 240 + marker.length + 240) ∧
    (text.length ≤ 480 + marker.length →
      _truncate_text text 240 240 marker = text) := by
  constructor
  · intro h
    have := @truncate_length_eq 240 240 text marker
      (by norm_num) (by norm_num) (by omega)
    simpa using this
  · intro h
    exact truncate_short (by omega)

set_option maxRecDepth 4000 in
/-- Witness for C5 at a concrete 600-character text and 1-character marker. -/
theorem C5_witness :
    (480 + (['x'] : Str).length < (List.replicate 600 'a').length) ∧
    (_truncate_text (List.replicate 600 'a') 240 240 ['x']).length = 240 + 1 + 240 := by
  refine ⟨by decide, ?_⟩
  have := (C5_truncation_boundary (List.replicate 600 'a') ['x']).1 (by decide)
  simpa using this

/-! ### C3: the dynamic cutoff formula -/

/-- Modelled from the spec (§4.2): the dynamic-cutoff formula
`clamp(interior_min_length/2, interior_min_length/max(0.25, burden_ratio), interior_min_length*4)`
read over exact (real/rational) arithmetic, with `clamp(lo, x, hi) = max(lo, min(x, hi))`
as fixed by the spec's own concrete instance `max(350, min(2800, 700/2.0))`. -/
def specDynamicCutoff (interior_min_length : ℤ) (burden_ratio : ℚ) : ℚ :=
  max ((interior_min_length : ℚ) / 2)
    (min ((interior_min_length : ℚ) / max (1/4) burden_ratio)
      ((interior_min_length : ℚ) * 4))

/-- `int()` of a nonnegative rational is its floor. -/
theorem ratTrunc_eq_floor {q : ℚ} (h : 0 ≤ q) : ratTrunc q = ⌊q⌋ := by
  rw [ratTrunc, Rat.floor_def]
  exact Int.tdiv_eq_ediv (Rat.num_nonneg.mpr h) (by positivity)

/-- Counterexample to C3: at `interior_min_length = 700`, `burden_ratio = 1.5`
the code computes `int(700/1.5) = 466` while the spec's exact clamp formula
gives `1400/3`, which is not an integer. -/
theorem C3_counterexample :
    ((_dynamic_cutoff 700 (3/2) : ℚ)) ≠ specDynamicCutoff 700 (3/2) := by
  have h1 : _dynamic_cutoff 700 (3/2)
      = min (700 * 4) (max (Int.fdiv 700 2)
          (ratTrunc (((700:ℤ) : ℚ) / max (1/4) (3/2)))) := rfl
  have hq : ((700 : ℤ) : ℚ) / max (1/4) (3/2) = 1400 / 3 := by norm_num
  have h2 : ratTrunc ((1400 : ℚ) / 3) = 466 := by
    rw [ratTrunc_eq_floor (by norm_num)]
    rw [show ((1400:ℚ)/3) = ((1400:ℕ):ℚ)/((3:ℕ):ℚ) by norm_num]
    rw [Rat.floor_natCast_div_natCast]
    norm_num
  rw [hq, h2] at h1
  have h3 : _dynamic_cutoff 700 (3/2) = 466 := by rw [h1]; decide
  have h4 : specDynamicCutoff 700 (3/2) = 1400 / 3 := by
    unfold specDynamicCutoff
    norm_num
  rw [h3, h4]
  norm_num

/-- A message with no parts and a single `content` string of `n` characters
(a minimal non-user-prompt message of a given text length). -/
def msgOfLen (n : ℕ) : Message :=
  { parts := [], content := some (List.replicate n 'a') }

/-- The floor of the spec's exact clamp formula agrees with the code's
integer computation for every nonnegative `interior_min_length`. -/
theorem dynamic_cutoff_eq_floor_clamp (iml : ℤ) (r : ℚ) (h : 0 ≤ iml) :
    _dynamic_cutoff iml r = ⌊specDynamicCutoff iml r⌋ := by
  have hρ : (0:ℚ) < max (1/4) r := lt_of_lt_of_le (by norm_num) (le_max_left _ _)
  have hmid : (0:ℚ) ≤ (iml : ℚ) / max (1/4) r :=
    div_nonneg (by exact_mod_cast h) hρ.le
  have h1 : _dynamic_cutoff iml r
      = min (iml * 4) (max (Int.fdiv iml 2)
          (ratTrunc ((iml : ℚ) / max (1/4) r))) := rfl
  have hfd : Int.fdiv iml 2 = iml / 2 := Int.fdiv_eq_ediv iml (by norm_num)
  have hhalf : ⌊((iml : ℚ) / 2)⌋ = iml / 2 := by
    rw [show ((iml : ℚ) / 2) = ((iml : ℚ) / ((2:ℕ) : ℚ)) by norm_num]
    exact Rat.floor_intCast_div_natCast iml 2
  have hfour : ⌊((iml : ℚ) * 4)⌋ = iml * 4 := by
    rw [show ((iml : ℚ) * 4) = (((iml * 4 : ℤ)) : ℚ) by push_cast; ring]
    exact Int.floor_intCast _
  have hmax : ⌊max ((iml : ℚ) / 2)
      (min ((iml : ℚ) / max (1/4) r) ((iml : ℚ) * 4))⌋
      = max ⌊((iml : ℚ) / 2)⌋ ⌊min ((iml : ℚ) / max (1/4) r) ((iml : ℚ) * 4)⌋ :=
    Int.floor_mono.map_max
  have hmin : ⌊min ((iml : ℚ) / max (1/4) r) ((iml : ℚ) * 4)⌋
      = min ⌊((iml : ℚ) / max (1/4) r)⌋ ⌊((iml : ℚ) * 4)⌋ :=
    Int.floor_mono.map_min
  rw [h1, ratTrunc_eq_floor hmid, specDynamicCutoff, hmax, hmin, hhalf, hfour, hfd]
  omega

/-- Text length of `msgOfLen n` is `n`. -/
theorem msgOfLen_text_length (n : ℕ) : _message_text_length (msgOfLen n) = n := by
  simp [msgOfLen, _message_text_length]

/-- C3 (amended): the dynamic cutoff is the floor of the spec's clamp formula
for every nonnegative `interior_min_length`; with `interior_min_length = 700`
and `burden_ratio = 2.0` the cutoff is 350, and an interior non-user-prompt
message of 5000 characters is truncated (its text length drops to
`240 + 29 + 240 = 509` with the default marker). -/
theorem C3_amended :
    (∀ (iml : ℤ) (r : ℚ), 0 ≤ iml →
        _dynamic_cutoff iml r = ⌊specDynamicCutoff iml r⌋) ∧
    _dynamic_cutoff 700 2 = 350 ∧
    (_compact_interaction_messages [msgOfLen 1, msgOfLen 5000, msgOfLen 1] 2
        defaultConfig).map _message_text_length = [1, 509, 1] := by
  have hcut : _dynamic_cutoff 700 2 = 350 := by
    have h1 : _dynamic_cutoff 700 2
        = min (700 * 4) (max (Int.fdiv 700 2)
            (ratTrunc (((700:ℤ) : ℚ) / max (1/4) 2))) := rfl
    have hq : ((700:ℤ) : ℚ) / max (1/4) 2 = 350 := by norm_num
    have h2 : ratTrunc ((350 : ℚ)) = 350 := by
      rw [ratTrunc_eq_floor (by norm_num)]
      rw [show ((350:ℚ)) = (((350:ℤ)) : ℚ) by norm_num]
      exact Int.floor_intCast _
    rw [hq, h2] at h1
    rw [h1]; decide
  refine ⟨dynamic_cutoff_eq_floor_clamp, hcut, ?_⟩
  have hh : defaultConfig.preserve_head_chars = 240 := rfl
  have htl : defaultConfig.preserve_tail_chars = 240 := rfl
  have hil : defaultConfig.interior_min_length = 700 := rfl
  have hmark : (defaultConfig.truncation_marker).length = 29 := by decide
  have hup : ∀ n, _message_has_user_prompt (msgOfLen n) = false := by
    intro n; simp [msgOfLen, _message_has_user_prompt]
  have h5000 : (_truncate_text (List.replicate 5000 'a') 240 240
      defaultConfig.truncation_marker).length = 509 := by
    rw [truncate_length_eq (by norm_num) (by norm_num)
      (by simp only [hmark, List.length_replicate]; norm_num)]
    rw [hmark]; decide
  have hmid : _message_text_length
      (_truncate_message_content_fields (msgOfLen 5000) 240 240
        defaultConfig.truncation_marker) = 509 := by
    simp only [_truncate_message_content_fields, msgOfLen, _message_text_length,
      List.map_nil, List.sum_nil, Option.map_some', Option.getD_some, h5000,
      Nat.zero_add]
  have c0 : ¬ interiorTruncCond 3 0 (msgOfLen 1) 2 defaultConfig := by
    rintro ⟨h1, -, -, -⟩; omega
  have c1 : interiorTruncCond 3 1 (msgOfLen 5000) 2 defaultConfig := by
    refine ⟨by norm_num, by norm_num, by simp [hup], ?_⟩
    rw [hil, hcut, msgOfLen_text_length]; norm_num
  have c2 : ¬ interiorTruncCond 3 2 (msgOfLen 1) 2 defaultConfig := by
    rintro ⟨-, h2, -, -⟩; omega
  have hinterior : _compact_interior [msgOfLen 1, msgOfLen 5000, msgOfLen 1] 2
      defaultConfig
      = [msgOfLen 1, _truncate_message_content_fields (msgOfLen 5000) 240 240
          defaultConfig.truncation_marker, msgOfLen 1] := by
    unfold _compact_interior
    rw [if_pos (by simp)]
    simp [mapIdxFrom]
    refine ⟨fun hc => absurd hc c0, ?_, fun hc => absurd hc c2⟩
    rw [if_pos c1, hh, htl]
  rw [_compact_interaction_messages, hinterior]
  rw [_apply_final_truncation]
  simp only [List.getLast?_cons_cons, List.getLast?_singleton]
  rw [if_neg (by
    rintro ⟨-, hlen, -⟩
    rw [msgOfLen_text_length] at hlen
    revert hlen; decide)]
  simp [msgOfLen_text_length, hmid]

/-- Witness for the universally quantified part of C3 (amended), at
`interior_min_length = 700`, `burden_ratio = 3`. -/
theorem C3_amended_witness :
    _dynamic_cutoff 700 3 = ⌊specDynamicCutoff 700 3⌋ :=
  C3_amended.1 700 3 (by norm_num)

/-! ### Structure of `_compact_interaction_messages` and of the main loop -/

/-- Relation between an input message and its compacted copy: the copy is
either the message itself or its content-field truncation, and a message
containing a user-prompt part is always left untouched. -/
def compactedMsgRel (config : ContextCompactionConfig) (m m' : Message) : Prop :=
  (m' = m ∨ m' = _truncate_message_content_fields m
      config.preserve_head_chars config.preserve_tail_chars config.truncation_marker) ∧
  (_message_has_user_prompt m = true → m' = m)

theorem compactedMsgRel_refl (config : ContextCompactionConfig) (m : Message) :
    compactedMsgRel config m m :=
  ⟨Or.inl rfl, fun _ => rfl⟩

theorem mapIdxFrom_length (f : ℕ → α → α) :
    ∀ (l : List α) (n : ℕ), (mapIdxFrom f l n).length = l.length := by
  intro l
  induction l with
  | nil => intro n; rfl
  | cons a l ih => intro n; simp [mapIdxFrom, ih]

theorem mapIdxFrom_concat (f : ℕ → α → α) :
    ∀ (l : List α) (a : α) (n : ℕ),
      mapIdxFrom f (l ++ [a]) n = mapIdxFrom f l n ++ [f (n + l.length) a] := by
  intro l
  induction l with
  | nil => intro a n; simp [mapIdxFrom]
  | cons b l ih =>
    intro a n
    show f n b :: mapIdxFrom f (l ++ [a]) (n + 1)
      = f n b :: (mapIdxFrom f l (n + 1) ++ [f (n + (l.length + 1)) a])
    rw [ih]
    have h : n + 1 + l.length = n + (l.length + 1) := by omega
    rw [h]

theorem mapIdxFrom_forall₂ {R : α → α → Prop} {f : ℕ → α → α}
    (h : ∀ i a, R a (f i a)) :
    ∀ (l : List α) (n : ℕ), List.Forall₂ R l (mapIdxFrom f l n) := by
  intro l
  induction l with
  | nil => intro n; exact List.Forall₂.nil
  | cons a l ih => intro n; exact List.Forall₂.cons (h n a) (ih (n + 1))

/-- The interior pass leaves the last message of the list untouched and
relates every message to its image. -/
theorem compact_interior_decomp (msgs : List Message) (last : Message)
    (r : ℚ) (config : ContextCompactionConfig) :
    ∃ I, _compact_interior (msgs ++ [last]) r config = I ++ [last] ∧
      List.Forall₂ (compactedMsgRel config) msgs I := by
  unfold _compact_interior
  split
  · refine ⟨mapIdxFrom (fun i m =>
      if interiorTruncCond (msgs ++ [last]).length i m r config then
        _truncate_message_content_fields m
          config.preserve_head_chars config.preserve_tail_chars config.truncation_marker
      else m) msgs 0, ?_, ?_⟩
    · rw [mapIdxFrom_concat]
      congr 1
      simp only [List.concat_eq_append, List.cons.injEq, and_true]
      rw [if_neg]
      rintro ⟨-, hlt, -, -⟩
      simp only [List.length_append, List.length_singleton, Nat.zero_add] at hlt
      omega
    · apply mapIdxFrom_forall₂
      intro i a
      split
      · next hc =>
        exact ⟨Or.inr rfl, fun hup => absurd hup hc.2.2.1⟩
      · exact compactedMsgRel_refl config a
  · exact ⟨msgs, rfl, List.forall₂_same.mpr (fun m _ => compactedMsgRel_refl config m)⟩

/-- Every message of an interaction is related by `compactedMsgRel` to the
corresponding message of the compacted copy (same count, same order). -/
theorem cim_forall₂ (msgs : List Message) (r : ℚ) (config : ContextCompactionConfig) :
    List.Forall₂ (compactedMsgRel config) msgs
      (_compact_interaction_messages msgs r config) := by
  rcases List.eq_nil_or_concat msgs with rfl | ⟨ms, last, rfl⟩
  · exact List.Forall₂.nil
  · obtain ⟨I, hI, hrel⟩ := compact_interior_decomp ms last r config
    simp only [List.concat_eq_append]
    unfold _compact_interaction_messages
    rw [hI]
    unfold _apply_final_truncation
    rw [List.getLast?_concat]
    simp only
    split
    · next hc =>
      rw [List.dropLast_concat]
      exact List.rel_append hrel
        (List.Forall₂.cons ⟨Or.inr rfl, fun hup => absurd hup hc.1⟩ List.Forall₂.nil)
    · exact List.rel_append hrel
        (List.Forall₂.cons (compactedMsgRel_refl config last) List.Forall₂.nil)

/-- Compaction preserves the message count of an interaction. -/
theorem cim_length (msgs : List Message) (r : ℚ) (config : ContextCompactionConfig) :
    (_compact_interaction_messages msgs r config).length = msgs.length :=
  (cim_forall₂ msgs r config).length_eq.symm

/-- The main loop processes a prefix of its (newest-first) input and compacts
each processed interaction's message list. -/
theorem compactLoop_structure (config : ContextCompactionConfig) :
    ∀ (l : List Interaction) (idx : ℕ) (b : ℚ) (t : ℤ),
      ∃ k, k ≤ l.length ∧ (compactLoop config l idx b t).length = k ∧
        List.Forall₂ (fun inter out =>
            List.Forall₂ (compactedMsgRel config) inter.messages out)
          (l.take k) (compactLoop config l idx b t) := by
  intro l
  induction l with
  | nil => intro idx b t; exact ⟨0, le_refl 0, rfl, List.Forall₂.nil⟩
  | cons inter rest ih =>
    intro idx b t
    rw [compactLoop]
    split
    · exact ⟨1, Nat.succ_le_succ (Nat.zero_le _), rfl,
        List.Forall₂.cons (cim_forall₂ inter.messages _ config) List.Forall₂.nil⟩
    · obtain ⟨k, hk, hlen, hrel⟩ := ih (idx + 1) (burdenStep config b idx inter)
        (t + (totalTextLength (stepCompacted config b idx inter) : ℤ))
      exact ⟨k + 1, Nat.succ_le_succ hk, by simp [hlen],
        List.Forall₂.cons (cim_forall₂ inter.messages _ config) hrel⟩

/-- The per-interaction output of `compact_recent_interactions` corresponds,
via `compactedMsgRel`, to a contiguous suffix of the input interactions. -/
theorem compactInteractions_structure (config : ContextCompactionConfig)
    (interactions : List Interaction) :
    ∃ d, d ≤ interactions.length ∧
      List.Forall₂ (fun inter out =>
          List.Forall₂ (compactedMsgRel config) inter.messages out)
        (interactions.drop d) (compactInteractions interactions config) := by
  obtain ⟨k, hk, -, hrel⟩ := compactLoop_structure config interactions.reverse 0 0 0
  rw [List.length_reverse] at hk
  refine ⟨interactions.length - k, Nat.sub_le _ _, ?_⟩
  rw [List.take_reverse] at hrel
  rw [compactInteractions]
  rw [← List.reverse_reverse (compactLoop config interactions.reverse 0 0 0)] at hrel
  exact List.forall₂_reverse_iff.mp hrel

/-- C10: the output of `compact_recent_interactions` is the oldest-to-newest
concatenation of per-interaction message lists of a contiguous suffix of the
input; each included interaction contributes exactly its messages, in order
and count, each either unchanged or content-field truncated. -/
theorem C10_suffix_structure (config : ContextCompactionConfig)
    (interactions : List Interaction) :
    ∃ d outs, d ≤ interactions.length ∧
      compact_recent_interactions interactions config = outs.flatten ∧
      List.Forall₂ (fun inter out =>
          List.Forall₂ (fun m m' => m' = m ∨
              m' = _truncate_message_content_fields m
                config.preserve_head_chars config.preserve_tail_chars
                config.truncation_marker)
            inter.messages out)
        (interactions.drop d) outs := by
  rcases eq_or_ne interactions [] with rfl | hne
  · exact ⟨0, [], Nat.le_refl 0, by simp [compact_recent_interactions],
      List.Forall₂.nil⟩
  · obtain ⟨d, hd, hrel⟩ := compactInteractions_structure config interactions
    refine ⟨d, compactInteractions interactions config, hd,
      by rw [compact_recent_interactions, if_neg hne], ?_⟩
    exact hrel.imp (fun inter out h => h.imp (fun m m' hmm => hmm.1))

/-- A message whose first part is a user-prompt part contains a user-prompt part. -/
theorem has_user_prompt_of_head (m : Message) (p : Part)
    (hp : m.parts.head? = some p) (hk : p.part_kind = some "user-prompt") :
    _message_has_user_prompt m = true := by
  cases hml : m.parts with
  | nil => rw [hml] at hp; simp at hp
  | cons q l =>
    rw [hml] at hp
    simp only [List.head?_cons, Option.some.injEq] at hp
    subst hp
    simp [_message_has_user_prompt, hml, hk]

/-- C2: messages whose first part has `part_kind == "user-prompt"` pass through
compaction verbatim, for every configuration and input. -/
theorem C2_user_prompt_preserved (config : ContextCompactionConfig)
    (interactions : List Interaction) :
    ∃ d outs, d ≤ interactions.length ∧
      compact_recent_interactions interactions config = outs.flatten ∧
      List.Forall₂ (fun inter out =>
          List.Forall₂ (fun m m' =>
              (∃ p, m.parts.head? = some p ∧ p.part_kind = some "user-prompt") →
                m' = m)
            inter.messages out)
        (interactions.drop d) outs := by
  rcases eq_or_ne interactions [] with rfl | hne
  · exact ⟨0, [], Nat.le_refl 0, by simp [compact_recent_interactions],
      List.Forall₂.nil⟩
  · obtain ⟨d, hd, hrel⟩ := compactInteractions_structure config interactions
    refine ⟨d, compactInteractions interactions config, hd,
      by rw [compact_recent_interactions, if_neg hne], ?_⟩
    refine hrel.imp (fun inter out h => h.imp (fun m m' hmm hhead => ?_))
    obtain ⟨p, hp, hk⟩ := hhead
    exact hmm.2 (has_user_prompt_of_head m p hp hk)

/-! ### C1: the at-least-one guarantee -/

/-- Configuration used by concrete counterexamples: burden threshold 1 (so the
burden ratio is at least 1 for any non-trivial interaction), small truncation
parameters, and `max_total_length = 10`. -/
def cexConfig : ContextCompactionConfig :=
  { burden_threshold := 1, base_weight := 1, weight_growth := 0,
    interior_min_length := 700, final_min_length := 10,
    preserve_head_chars := 2, preserve_tail_chars := 2,
    truncation_marker := ['X'], max_total_length := 10 }

/-- Counterexample to C1.  First conjunct: a non-empty interaction list (one
interaction with no messages) yields an empty output.  Second conjunct: with
`max_total_length = 10` below every interaction's text length (20 each), the
output still contains the messages of two interactions, not just the most
recent one, because truncation shrank the newest interaction below the budget. -/
theorem C1_counterexample :
    (([⟨[]⟩] : List Interaction) ≠ [] ∧
      compact_recent_interactions [⟨[]⟩] defaultConfig = []) ∧
    ((cexConfig.max_total_length <
        (interactionTextLength ⟨[msgOfLen 20]⟩ : ℤ)) ∧
      (compact_recent_interactions [⟨[msgOfLen 20]⟩, ⟨[msgOfLen 20]⟩] cexConfig).length
        ≠ (⟨[msgOfLen 20]⟩ : Interaction).messages.length) := by
  refine ⟨⟨by simp, ?_⟩, ⟨?_, ?_⟩⟩
  · simp [compact_recent_interactions, compactInteractions, compactLoop,
      stepCompacted, burdenStep, burdenRatio, _compact_interaction_messages,
      _compact_interior, _apply_final_truncation, interactionTextLength,
      totalTextLength, defaultConfig]
  · simp [cexConfig, interactionTextLength, msgOfLen, _message_text_length]
  · simp [compact_recent_interactions, compactInteractions, compactLoop,
      stepCompacted, burdenStep, burdenRatio, _compact_interaction_messages,
      _compact_interior, _apply_final_truncation, interactionTextLength,
      totalTextLength, cexConfig, msgOfLen, _message_text_length,
      _message_has_user_prompt, _truncate_message_content_fields, _truncate_text,
      pyTake, pyDrop, pyIdx]
    norm_num

/-- C1 (amended): if the most recent interaction has at least one message the
output is never empty; and if the *compacted* text length of the most recent
interaction already exceeds `max_total_length`, the output is exactly that one
interaction's (possibly internally truncated) message list. -/
theorem C1_amended (config : ContextCompactionConfig)
    (interactions : List Interaction) (h : interactions ≠ []) :
    ((interactions.getLast h).messages ≠ [] →
      compact_recent_interactions interactions config ≠ []) ∧
    (config.max_total_length <
        (totalTextLength (stepCompacted config 0 0 (interactions.getLast h)) : ℤ) →
      compact_recent_interactions interactions config
        = stepCompacted config 0 0 (interactions.getLast h)) := by
  have hR : interactions.reverse
      = interactions.getLast h :: interactions.dropLast.reverse := by
    conv =>
      lhs
      rw [← List.dropLast_append_getLast h]
    rw [List.reverse_append]
    rfl
  constructor
  · intro hmsgs hflat
    rw [compact_recent_interactions, if_neg h, compactInteractions] at hflat
    have hmem : stepCompacted config 0 0 (interactions.getLast h)
        ∈ (compactLoop config interactions.reverse 0 0 0).reverse := by
      rw [hR, compactLoop]
      split
      · simp
      · simp
    have hnil := (List.flatten_eq_nil_iff.mp hflat) _ hmem
    have hlen : (stepCompacted config 0 0 (interactions.getLast h)).length
        = (interactions.getLast h).messages.length := cim_length _ _ _
    rw [hnil] at hlen
    exact hmsgs (List.eq_nil_of_length_eq_zero hlen.symm)
  · intro hbig
    rw [compact_recent_interactions, if_neg h, compactInteractions, hR, compactLoop]
    rw [if_pos (by rwa [zero_add])]
    simp

/-- Witness for C1 (amended): a single 20-character interaction with
`max_total_length = 3`; its compacted length is 5, so the loop stops after it
and returns exactly its (truncated) message. -/
theorem C1_witness :
    compact_recent_interactions [⟨[msgOfLen 20]⟩]
        { cexConfig with max_total_length := 3 } ≠ [] ∧
    compact_recent_interactions [⟨[msgOfLen 20]⟩]
        { cexConfig with max_total_length := 3 }
      = stepCompacted { cexConfig with max_total_length := 3 } 0 0 ⟨[msgOfLen 20]⟩ := by
  have h : ([(⟨[msgOfLen 20]⟩ : Interaction)]) ≠ [] := by simp
  have hc := C1_amended { cexConfig with max_total_length := 3 } [⟨[msgOfLen 20]⟩] h
  have hlast : ([(⟨[msgOfLen 20]⟩ : Interaction)]).getLast h = ⟨[msgOfLen 20]⟩ := rfl
  rw [hlast] at hc
  refine ⟨hc.1 (by simp), hc.2 ?_⟩
  simp [stepCompacted, burdenStep, burdenRatio, _compact_interaction_messages,
    _compact_interior, _apply_final_truncation, interactionTextLength,
    totalTextLength, cexConfig, msgOfLen, _message_text_length,
    _message_has_user_prompt, _truncate_message_content_fields, _truncate_text,
    pyTake, pyDrop, pyIdx]

/-! ### C4: the burden recurrence -/

/-- The burden value after processing a (newest-first) list of interactions,
starting at reverse index `reverse_idx`: each step applies `burdenStep`, the
burden update used by `compactLoop`. -/
def burdenAfter (config : ContextCompactionConfig) :
    List Interaction → ℕ → ℚ → ℚ
  | [], _, burden => burden
  | interaction :: rest, reverse_idx, burden =>
    burdenAfter config rest (reverse_idx + 1)
      (burdenStep config burden reverse_idx interaction)

/-- Counterexample to C4: with `base_weight = -1` and `weight_growth = 0`, the
claimed increment `(base_weight + weight_growth * 0) * length = -5` differs
from the code's increment, which clamps the weight at zero. -/
theorem C4_counterexample :
    burdenStep { cexConfig with base_weight := -1 } 0 0 ⟨[msgOfLen 5]⟩
      ≠ 0 + (({ cexConfig with base_weight := -1 } : ContextCompactionConfig).base_weight
          + ({ cexConfig with base_weight := -1 } : ContextCompactionConfig).weight_growth
            * ((0:ℕ) : ℚ))
        * (interactionTextLength ⟨[msgOfLen 5]⟩ : ℚ) := by
  simp [burdenStep, cexConfig, interactionTextLength, msgOfLen, _message_text_length]

/-- Closed form of `burdenAfter` starting from reverse index `idx`. -/
theorem burdenAfter_eq (config : ContextCompactionConfig) :
    ∀ (l : List Interaction) (idx : ℕ) (b : ℚ),
      burdenAfter config l idx b
        = b + ((List.enumFrom idx l).map (fun p =>
            max 0 (config.base_weight + config.weight_growth * (p.1 : ℚ))
              * (interactionTextLength p.2 : ℚ))).sum := by
  intro l
  induction l with
  | nil => intro idx b; simp [burdenAfter]
  | cons i rest ih =>
    intro idx b
    rw [burdenAfter, ih, List.enumFrom_cons]
    simp only [List.map_cons, List.sum_cons, burdenStep]
    ring

/-- C4 (amended): along the newest-first walk the burden after the first `k`
interactions is the sum of `max(0, base_weight + weight_growth * i) *
interaction_text_length(i)` over `i < k` — the weight is clamped at zero
before multiplying — and the burden ratio is `burden / max(1, burden_threshold)`. -/
theorem C4_amended :
    (∀ (config : ContextCompactionConfig) (l : List Interaction),
      burdenAfter config l 0 0
        = ((l.enum).map (fun p =>
            max 0 (config.base_weight + config.weight_growth * (p.1 : ℚ))
              * (interactionTextLength p.2 : ℚ))).sum) ∧
    (∀ (config : ContextCompactionConfig) (b : ℚ),
      burdenRatio config b = b / max 1 config.burden_threshold) := by
  constructor
  · intro config l
    rw [List.enum, burdenAfter_eq, zero_add]
  · intro config b
    rfl

/-! ### C6: re-compaction -/

/-- View a list of already-compacted per-interaction message lists as
interactions again, for feeding them back into compaction. -/
def recompactInput (outs : List (List Message)) : List Interaction :=
  outs.map Interaction.mk

/-- Pointwise bound on mapped sums. -/
theorem sum_map_le {f g : α → ℕ} :
    ∀ (l : List α), (∀ a ∈ l, f a ≤ g a) → (l.map f).sum ≤ (l.map g).sum := by
  intro l
  induction l with
  | nil => intro _; simp
  | cons a l ih =>
    intro h
    simp only [List.map_cons, List.sum_cons]
    exact Nat.add_le_add (h a (List.mem_cons_self a l)) (ih (fun b hb => h b (List.mem_cons_of_mem a hb)))

/-- Content-field truncation never lengthens a message's total text length. -/
theorem msgLen_trunc_le (m : Message) {head_chars tail_chars : ℤ} (marker : Str)
    (h0 : 0 ≤ head_chars) (t1 : 1 ≤ tail_chars) :
    _message_text_length (_truncate_message_content_fields m head_chars tail_chars marker)
      ≤ _message_text_length m := by
  unfold _message_text_length _truncate_message_content_fields
  simp only [List.map_map]
  apply Nat.add_le_add
  · apply sum_map_le
    intro p _
    cases hc : p.content with
    | none => simp [Function.comp, hc]
    | some c =>
      simp only [Function.comp, hc, Option.map_some', Option.getD_some]
      exact truncate_length_le c marker h0 t1
  · cases m.content with
    | none => simp
    | some c => simpa using truncate_length_le c marker h0 t1

/-- Sum comparison along a `Forall₂`. -/
theorem forall₂_sum_le {f : α → ℕ} :
    ∀ {l l' : List α}, List.Forall₂ (fun a b => f b ≤ f a) l l' →
      (l'.map f).sum ≤ (l.map f).sum := by
  intro l l' h
  induction h with
  | nil => simp
  | cons hab _ ih => simpa using Nat.add_le_add hab ih

/-- Under `compactedMsgRel`, text length never grows (for a nonnegative head
and positive tail). -/
theorem compactedMsgRel_len_le (config : ContextCompactionConfig)
    (h0 : 0 ≤ config.preserve_head_chars) (t1 : 1 ≤ config.preserve_tail_chars)
    {m m' : Message} (h : compactedMsgRel config m m') :
    _message_text_length m' ≤ _message_text_length m := by
  rcases h.1 with rfl | rfl
  · exact Nat.le_refl _
  · exact msgLen_trunc_le m config.truncation_marker h0 t1

/-- Compaction of one interaction never increases its total text length. -/
theorem cim_total_le (msgs : List Message) (r : ℚ) (config : ContextCompactionConfig)
    (h0 : 0 ≤ config.preserve_head_chars) (t1 : 1 ≤ config.preserve_tail_chars) :
    totalTextLength (_compact_interaction_messages msgs r config)
      ≤ totalTextLength msgs :=
  forall₂_sum_le ((cim_forall₂ msgs r config).imp
    (fun _ _ h => compactedMsgRel_len_le config h0 t1 h))

/-- The inner relation of re-compaction: the second-pass message is the
first-pass message, possibly with its content fields truncated again. -/
def retruncRel (config : ContextCompactionConfig) (ym zm : Message) : Prop :=
  zm = ym ∨ zm = _truncate_message_content_fields ym
    config.preserve_head_chars config.preserve_tail_chars config.truncation_marker

/-- The parallel run of `compactLoop` on its own output: starting from burden
and total-length accumulators no larger than the first pass's, the second pass
keeps every interaction of the first pass and only re-truncates messages. -/
theorem compactLoop_recompact (config : ContextCompactionConfig)
    (h0 : 0 ≤ config.preserve_head_chars) (t1 : 1 ≤ config.preserve_tail_chars) :
    ∀ (l : List Interaction) (idx : ℕ) (b1 b2 : ℚ) (s1 s2 : ℤ),
      b2 ≤ b1 → s2 ≤ s1 →
      List.Forall₂ (fun ymsgs zmsgs => List.Forall₂ (retruncRel config) ymsgs zmsgs)
        (compactLoop config l idx b1 s1)
        (compactLoop config ((compactLoop config l idx b1 s1).map Interaction.mk) idx b2 s2) := by
  intro l
  induction l with
  | nil =>
    intro idx b1 b2 s1 s2 _ _
    exact List.Forall₂.nil
  | cons inter rest ih =>
    intro idx b1 b2 s1 s2 hb hs
    have hshrink : ∀ (b : ℚ) (msgs : List Message),
        totalTextLength (stepCompacted config b idx (Interaction.mk msgs))
          ≤ totalTextLength msgs := by
      intro b msgs
      exact cim_total_le msgs _ config h0 t1
    have hstep_le : totalTextLength (stepCompacted config b1 idx inter)
        ≤ interactionTextLength inter :=
      cim_total_le inter.messages _ config h0 t1
    rw [compactLoop]
    split
    · next hbreak =>
      have hsingle : ∀ (z : ℤ) (b : ℚ),
          compactLoop config [Interaction.mk (stepCompacted config b1 idx inter)] idx b z
            = [stepCompacted config b idx (Interaction.mk (stepCompacted config b1 idx inter))] := by
        intro z b
        rw [compactLoop]
        split
        · rfl
        · rfl
      rw [List.map_cons, List.map_nil, hsingle]
      refine List.Forall₂.cons ?_ List.Forall₂.nil
      exact (cim_forall₂ (stepCompacted config b1 idx inter) _ config).imp
        (fun _ _ h => h.1)
    · next hkeep =>
      rw [List.map_cons]
      rw [compactLoop]
      rw [if_neg (by
        intro hcontra
        apply hkeep
        have h1 := hshrink b2 (stepCompacted config b1 idx inter)
        omega)]
      refine List.Forall₂.cons
        ((cim_forall₂ (stepCompacted config b1 idx inter) _ config).imp
          (fun _ _ h => h.1)) ?_
      have hb' : burdenStep config b2 idx (Interaction.mk (stepCompacted config b1 idx inter))
          ≤ burdenStep config b1 idx inter := by
        unfold burdenStep
        have hw : (0:ℚ) ≤ max 0 (config.base_weight + config.weight_growth * idx) :=
          le_max_left 0 _
        have hlen : (interactionTextLength
              (Interaction.mk (stepCompacted config b1 idx inter)) : ℚ)
            ≤ (interactionTextLength inter : ℚ) := by
          exact_mod_cast hstep_le
        have := mul_le_mul_of_nonneg_left hlen hw
        exact add_le_add hb this
      have hs' : s2 + (totalTextLength (stepCompacted config b2 idx
              (Interaction.mk (stepCompacted config b1 idx inter))) : ℤ)
          ≤ s1 + (totalTextLength (stepCompacted config b1 idx inter) : ℤ) := by
        have h1 := hshrink b2 (stepCompacted config b1 idx inter)
        omega
      exact ih (idx + 1) (burdenStep config b1 idx inter) _ _ _ hb' hs'

/-- Counterexample to C6: with `preserve_tail_chars = 0` (Python `s[-0:]` is the
whole string), pass one truncates the 10-character content to `"aaX" + original`
(13 characters), and a second compaction of that output with the same
configuration changes this already-truncated field again. -/
def cexTailZeroConfig : ContextCompactionConfig :=
  { burden_threshold := 1, base_weight := 1, weight_growth := 0,
    interior_min_length := 700, final_min_length := 10,
    preserve_head_chars := 2, preserve_tail_chars := 0,
    truncation_marker := ['X'], max_total_length := 1000 }

theorem C6_counterexample :
    (compact_recent_interactions [⟨[msgOfLen 10]⟩] cexTailZeroConfig).map Message.content
      = [some (['a','a','X'] ++ List.replicate 10 'a')] ∧
    (compact_recent_interactions
        (recompactInput (compactInteractions [⟨[msgOfLen 10]⟩] cexTailZeroConfig))
        cexTailZeroConfig).map Message.content
      = [some (['a','a','X','a','a','X'] ++ List.replicate 10 'a')] ∧
    (['a','a','X'] ++ List.replicate 10 'a') ≠ List.replicate 10 'a' := by
  refine ⟨?_, ?_, by decide⟩
  · simp [compact_recent_interactions, compactInteractions, compactLoop,
      stepCompacted, burdenStep, burdenRatio, _compact_interaction_messages,
      _compact_interior, _apply_final_truncation, totalTextLength,
      cexTailZeroConfig, msgOfLen, _message_text_length,
      _message_has_user_prompt, _truncate_message_content_fields, _truncate_text,
      pyTake, pyDrop, pyIdx]
    decide
  · simp [compact_recent_interactions, compactInteractions, compactLoop,
      stepCompacted, burdenStep, burdenRatio, _compact_interaction_messages,
      _compact_interior, _apply_final_truncation, totalTextLength, recompactInput,
      cexTailZeroConfig, msgOfLen, _message_text_length,
      _message_has_user_prompt, _truncate_message_content_fields, _truncate_text,
      pyTake, pyDrop, pyIdx]
    decide

/-- Content-field truncation is idempotent on whole messages (nonnegative head,
positive tail). -/
theorem truncMsg_idem (m : Message) {head_chars tail_chars : ℤ} (marker : Str)
    (h0 : 0 ≤ head_chars) (t1 : 1 ≤ tail_chars) :
    _truncate_message_content_fields
        (_truncate_message_content_fields m head_chars tail_chars marker)
        head_chars tail_chars marker
      = _truncate_message_content_fields m head_chars tail_chars marker := by
  cases m with
  | mk parts content =>
    unfold _truncate_message_content_fields
    simp only [List.map_map, Message.mk.injEq]
    constructor
    · apply List.map_congr_left
      intro p _
      cases p with
      | mk pk pc =>
        cases pc with
        | none => rfl
        | some c => simp [Function.comp, truncate_idem c marker h0 t1]
    · cases content with
      | none => rfl
      | some c => simp [truncate_idem c marker h0 t1]

/-- C6 (amended, restricted to `preserve_head_chars ≥ 0` and
`preserve_tail_chars ≥ 1`): re-compacting the compacted output with the same
configuration keeps the same interactions and the same message count per
interaction, each second-pass message being the first-pass message possibly
re-truncated; and truncation itself is idempotent on every content field, so
every field already truncated by the first pass is unchanged by the second. -/
theorem C6_amended (config : ContextCompactionConfig) (X : List Interaction)
    (h0 : 0 ≤ config.preserve_head_chars) (t1 : 1 ≤ config.preserve_tail_chars) :
    ((compactInteractions (recompactInput (compactInteractions X config)) config).length
        = (compactInteractions X config).length ∧
      List.Forall₂ (fun ymsgs zmsgs => List.Forall₂ (retruncRel config) ymsgs zmsgs)
        (compactInteractions X config)
        (compactInteractions (recompactInput (compactInteractions X config)) config)) ∧
    (∀ text : Str,
      _truncate_text (_truncate_text text config.preserve_head_chars
          config.preserve_tail_chars config.truncation_marker)
        config.preserve_head_chars config.preserve_tail_chars config.truncation_marker
      = _truncate_text text config.preserve_head_chars config.preserve_tail_chars
          config.truncation_marker) := by
  have hmain := compactLoop_recompact config h0 t1 X.reverse 0 0 0 0 0
    (le_refl 0) (le_refl 0)
  have hrw : (recompactInput (compactInteractions X config)).reverse
      = (compactLoop config X.reverse 0 0 0).map Interaction.mk := by
    rw [recompactInput, compactInteractions, ← List.map_reverse, List.reverse_reverse]
  have h2 : compactInteractions (recompactInput (compactInteractions X config)) config
      = (compactLoop config ((compactLoop config X.reverse 0 0 0).map Interaction.mk)
          0 0 0).reverse := by
    rw [compactInteractions, hrw]
  refine ⟨⟨?_, ?_⟩, fun text => truncate_idem text config.truncation_marker h0 t1⟩
  · rw [h2, compactInteractions]
    simpa using hmain.length_eq.symm
  · rw [h2, compactInteractions]
    exact List.forall₂_reverse_iff.mpr hmain

/-- Witness for C6 (amended) at the default configuration and a concrete
one-interaction history. -/
theorem C6_witness :
    (compactInteractions (recompactInput (compactInteractions [⟨[msgOfLen 10]⟩]
          defaultConfig)) defaultConfig).length
      = (compactInteractions [⟨[msgOfLen 10]⟩] defaultConfig).length := by
  exact ((C6_amended defaultConfig [⟨[msgOfLen 10]⟩] (by decide) (by decide)).1).1

/-!
### Embedding of `message_history.py`

The SQLite/SQLAlchemy layer is modelled as the ordered list of rows of the
append-only `messages` table.  The JSON `message` column is modelled by its
parsed value (`json.dumps` on write and `json.loads` on read cancel out).
Timestamps are modelled as naturals: `datetime.now()` of successive inserts is
strictly increasing in the scenarios the claims quantify over, and comparison
of `isoformat` strings of such datetimes coincides with numeric comparison.
`ORDER BY created_at` is modelled as a stable sort by `created_at`.
-/

/-- A stored message payload, as read by the retrieval/search code: its `kind`
and its `parts` (absent or non-string JSON fields are `none`). -/
structure Payload where
  kind : Option String
  parts : List Part
deriving DecidableEq, Repr

/-- One row of the `messages` table. -/
structure Row where
  id : ℕ
  thread_id : String
  interaction_id : Option String
  message : Payload
  created_at : ℕ
deriving DecidableEq, Repr

/-- The `Interaction` dataclass of `message_history.py`. -/
structure MHInteraction where
  interaction_id : String
  thread_id : String
  messages : List Row
  created_at : Option ℕ
deriving DecidableEq, Repr

/-- Python `if msg.interaction_id:` — both `None` and the empty string are
falsy. -/
def truthyIid (r : Row) : Option String :=
  match r.interaction_id with
  | none => none
  | some s => if s = "" then none else some s

/-- `interactions_dict[msg.interaction_id].append(msg)`, with dict insertion
order preserved (Python dicts iterate in first-insertion order). -/
def insertGroup : List (String × List Row) → String → Row → List (String × List Row)
  | [], iid, r => [(iid, [r])]
  | (k, rs) :: rest, iid, r =>
    if k = iid then (k, rs ++ [r]) :: rest
    else (k, rs) :: insertGroup rest iid r

/-- One step of the grouping loop of `get_all_interactions` (lines 205-211). -/
def groupStep (acc : List (String × List Row) × List Row) (r : Row) :
    List (String × List Row) × List Row :=
  match truthyIid r with
  | some iid => (insertGroup acc.1 iid r, acc.2)
  | none => (acc.1, acc.2 ++ [r])

/-- The grouping loop: messages with a truthy `interaction_id` grouped in
first-occurrence order, the rest collected as standalone messages. -/
def groupRows (rows : List Row) : List (String × List Row) × List Row :=
  rows.foldl groupStep ([], [])

/-- Building an `Interaction` from one group (lines 217-233); the rebuilt
message objects copy every column, so they are the rows themselves. -/
def interactionOfGroup (thread_id : String) (g : String × List Row) : MHInteraction :=
  { interaction_id := g.1, thread_id := thread_id,
    messages := g.2,
    created_at := g.2.head?.map Row.created_at }

/-- A standalone message as its own interaction (lines 236-251); the rebuilt
message object sets `interaction_id = None`. -/
def standaloneInteraction (thread_id : String) (r : Row) : MHInteraction :=
  { interaction_id := "standalone-" ++ toString r.id, thread_id := thread_id,
    messages := [{ r with interaction_id := none }],
    created_at := some r.created_at }

/-- Sort key of the final `result.sort(key=lambda x: x.created_at or "")`:
`None` becomes `""`, below the isoformat string of every timestamp. -/
def createdKey (i : MHInteraction) : ℕ :=
  match i.created_at with
  | none => 0
  | some n => n + 1

/-- `get_all_interactions` (lines 179-256). -/
def get_all_interactions (db : List Row) (thread_id : String) : List MHInteraction :=
  List.insertionSort (fun a b => createdKey a ≤ createdKey b)
    ((groupRows (List.insertionSort (fun a b => a.created_at ≤ b.created_at)
        (db.filter (fun r => r.thread_id == thread_id)))).1.map
          (interactionOfGroup thread_id)
      ++ (groupRows (List.insertionSort (fun a b => a.created_at ≤ b.created_at)
        (db.filter (fun r => r.thread_id == thread_id)))).2.map
          (standaloneInteraction thread_id))

/-- `get_recent_interactions` (lines 258-282), `messages_only = False` branch:
clamp `limit` to the interaction count from above, then slice
`all_interactions[-limit:]`. -/
def get_recent_interactions (db : List Row) (thread_id : String) (limit : ℤ) :
    List MHInteraction :=
  pyDrop (get_all_interactions db thread_id)
    (-(if ((get_all_interactions db thread_id).length : ℤ) ≤ limit
        then ((get_all_interactions db thread_id).length : ℤ) else limit))

/-- `get_recent_interactions` with `messages_only = True`: the same
interactions flattened to their message sequence. -/
def get_recent_interactions_messages_only (db : List Row) (thread_id : String)
    (limit : ℤ) : List Row :=
  ((get_recent_interactions db thread_id limit).map MHInteraction.messages).flatten

/-- The last `n` elements of a list (the intended meaning of "the last `limit`
interactions"). -/
def takeLast (l : List α) (n : ℕ) : List α := l.drop (l.length - n)

/-! ### C7: the recency slice -/

theorem takeLast_of_le {l : List α} {n : ℕ} (h : l.length ≤ n) : takeLast l n = l := by
  unfold takeLast
  rw [Nat.sub_eq_zero_of_le h, List.drop_zero]

/-- When `limit` is at least the interaction count, everything is returned. -/
theorem get_recent_all {db : List Row} {t : String} {limit : ℤ}
    (h : ((get_all_interactions db t).length : ℤ) ≤ limit) :
    get_recent_interactions db t limit = get_all_interactions db t := by
  unfold get_recent_interactions pyDrop pyIdx
  rw [if_pos h]
  split
  · next hneg =>
    have hz : (get_all_interactions db t).length
        - ((-((get_all_interactions db t).length : ℤ)).natAbs) = 0 := by omega
    rw [hz, List.drop_zero]
  · next hpos =>
    have hz : min (get_all_interactions db t).length
        ((-((get_all_interactions db t).length : ℤ)).toNat) = 0 := by omega
    rw [hz, List.drop_zero]

/-- For `limit ≥ 1`, the slice `all_interactions[-limit:]` is the last
`limit` interactions. -/
theorem get_recent_eq_takeLast {db : List Row} {t : String} {limit : ℤ}
    (h1 : 1 ≤ limit) :
    get_recent_interactions db t limit
      = takeLast (get_all_interactions db t) limit.toNat := by
  by_cases hle : ((get_all_interactions db t).length : ℤ) ≤ limit
  · rw [get_recent_all hle, takeLast_of_le (by omega)]
  · unfold get_recent_interactions pyDrop pyIdx takeLast
    rw [if_neg hle, if_pos (by omega)]
    congr 1
    omega

/-- C7 (amended, for `limit ≥ 1`): `get_recent_interactions` returns exactly
the last `limit` interactions of the thread in oldest-to-newest order, and all
of them when `limit` is at least the interaction count (a thread with no
interactions yields the empty list, since `takeLast [] n = []`). -/
theorem C7_amended (db : List Row) (t : String) (limit : ℤ) (h : 1 ≤ limit) :
    get_recent_interactions db t limit
        = takeLast (get_all_interactions db t) limit.toNat ∧
    (((get_all_interactions db t).length : ℤ) ≤ limit →
      get_recent_interactions db t limit = get_all_interactions db t) :=
  ⟨get_recent_eq_takeLast h, fun hle => get_recent_all hle⟩

/-- A one-row database (a single standalone message in thread `"t"`). -/
def cexDb : List Row :=
  [{ id := 0, thread_id := "t", interaction_id := none,
     message := ⟨none, []⟩, created_at := 0 }]

/-- Counterexample to C7: at `limit = 0` the slice `all_interactions[-0:]` is
the whole list (Python `-0 == 0`), not the last zero interactions. -/
theorem C7_counterexample :
    get_recent_interactions cexDb "t" 0
      ≠ takeLast (get_all_interactions cexDb "t") 0 := by decide

/-- Witness for C7 (amended) on the one-row database with `limit = 1`. -/
theorem C7_witness :
    get_recent_interactions cexDb "t" 1
        = takeLast (get_all_interactions cexDb "t") (1:ℤ).toNat ∧
    get_recent_interactions cexDb "t" 1 = get_all_interactions cexDb "t" :=
  ⟨(C7_amended cexDb "t" 1 (by decide)).1,
    (C7_amended cexDb "t" 1 (by decide)).2 (by decide)⟩

/-! ### C9: search never returns the same message pair twice -/

/-- `_get_message_pair` (message_history.py lines 449-500): locate the message
by id, then pair a `"request"` with the immediately following `"response"`, a
`"response"` with the immediately preceding `"request"`, and return any other
kind on its own (`kind = message.get("kind", "")`). -/
def _get_message_pair (message_id : ℕ) (all_messages : List Row) : List Row :=
  match all_messages.findIdx? (fun r => r.id == message_id) with
  | none => []
  | some idx =>
    match all_messages[idx]? with
    | none => []
    | some row =>
      if (row.message.kind).getD "" = "request" then
        [row] ++
          (match all_messages[idx + 1]? with
           | some next_msg =>
             if (next_msg.message.kind).getD "" = "response" then [next_msg] else []
           | none => [])
      else if (row.message.kind).getD "" = "response" then
        (match (if 0 < idx then all_messages[idx - 1]? else none) with
         | some prev_msg =>
           if (prev_msg.message.kind).getD "" = "request" then [prev_msg] else []
         | none => []) ++ [row]
      else [row]

/-- The result-pair collection loop of `search` (lines 591-611): walk the
ranked candidate ids, stop at `limit` pairs, skip empty pairs and pairs whose
id tuple was already seen, otherwise record the pair. -/
def collectPairs (all_messages : List Row) (limit : ℕ) :
    List ℕ → List (List ℕ) → List (List Row) → List (List Row)
  | [], _, result_pairs => result_pairs
  | msg_id :: rest, seen_pair_ids, result_pairs =>
    if limit ≤ result_pairs.length then result_pairs
    else if _get_message_pair msg_id all_messages = [] then
      collectPairs all_messages limit rest seen_pair_ids result_pairs
    else if ((_get_message_pair msg_id all_messages).map Row.id) ∈ seen_pair_ids then
      collectPairs all_messages limit rest seen_pair_ids result_pairs
    else
      collectPairs all_messages limit rest
        (((_get_message_pair msg_id all_messages).map Row.id) :: seen_pair_ids)
        (result_pairs ++ [_get_message_pair msg_id all_messages])

/-- Candidate selection of `search` (lines 588-589): the indices scoring
strictly above `min_score`, sorted by descending score, mapped to message ids.
The scores themselves are produced by the external `rank_bm25` library and are
therefore a parameter of the model. -/
def rankedCandidateIds (message_ids : List ℕ) (scores : List ℚ) (min_score : ℚ) :
    List ℕ :=
  (List.insertionSort (fun a b => b.2 ≤ a.2)
      ((scores.enum).filter (fun p => min_score < p.2))).map
    (fun p => message_ids.getD p.1 0)

/-- The `result_pairs` list built by `search` for a given ranked candidate
order. -/
def search_result_pairs (all_messages : List Row) (ranked_ids : List ℕ)
    (limit : ℕ) : List (List Row) :=
  collectPairs all_messages limit ranked_ids [] []

/-- Invariant of the collection loop: if the accumulated pairs have distinct
id tuples, all recorded in `seen`, the final result has distinct id tuples. -/
theorem collectPairs_nodup (all_messages : List Row) (limit : ℕ) :
    ∀ (cands : List ℕ) (seen : List (List ℕ)) (acc : List (List Row)),
      (acc.map (fun pair => pair.map Row.id)).Nodup →
      (∀ p ∈ acc, (p.map Row.id) ∈ seen) →
      ((collectPairs all_messages limit cands seen acc).map
          (fun pair => pair.map Row.id)).Nodup := by
  intro cands
  induction cands with
  | nil => intro seen acc h1 _; exact h1
  | cons msg_id rest ih =>
    intro seen acc h1 h2
    rw [collectPairs]
    split
    · exact h1
    · split
      · exact ih seen acc h1 h2
      · split
        · exact ih seen acc h1 h2
        · next hnotseen =>
          apply ih
          · rw [List.map_append]
            simp only [List.map_cons, List.map_nil]
            rw [List.nodup_append]
            refine ⟨h1, List.nodup_singleton _, ?_⟩
            intro pid hpid
            simp only [List.mem_singleton]
            intro hcontra
            obtain ⟨p, hp, hpeq⟩ := List.mem_map.mp hpid
            exact hnotseen (hcontra ▸ hpeq ▸ h2 p hp)
          · intro p hp
            rcases List.mem_append.mp hp with hmem | hmem
            · exact List.mem_cons_of_mem _ (h2 p hmem)
            · rw [List.mem_singleton.mp hmem]
              exact List.mem_cons_self _ _

/-- C9: in the output of the search result-pair loop, no message pair
(identified by the ids of its constituent messages) appears twice — for every
database, candidate ranking and limit. -/
theorem C9_no_duplicate_pairs (all_messages : List Row) (ranked_ids : List ℕ)
    (limit : ℕ) :
    ((search_result_pairs all_messages ranked_ids limit).map
        (fun pair => pair.map Row.id)).Nodup :=
  collectPairs_nodup all_messages limit ranked_ids [] []
    List.nodup_nil (by intro p hp; cases hp)

/-! ### C8: thread isolation and creation-order preservation -/

/-- One `add_interaction(thread_id, messages)` call: a fresh interaction id
(`uuid4`) and the messages inserted atomically. -/
structure AppendOp where
  thread_id : String
  interaction_id : String
  messages : List Payload
deriving DecidableEq, Repr

/-- The rows inserted for one append, with the global id/timestamp counter
starting at `n`: each message gets the next counter value as both its
autoincrement id and its (strictly increasing) `created_at`. -/
def appendRows (a : AppendOp) : ℕ → List Payload → List Row
  | _, [] => []
  | n, p :: rest =>
    { id := n, thread_id := a.thread_id, interaction_id := some a.interaction_id,
      message := p, created_at := n } :: appendRows a (n + 1) rest

/-- The database produced by a sequence of interleaved appends. -/
def buildDb : List AppendOp → ℕ → List Row
  | [], _ => []
  | a :: rest, n => appendRows a n a.messages ++ buildDb rest (n + a.messages.length)

/-- The per-thread view of the appends: interaction id plus inserted rows, in
append order, for the appends targeting thread `t`. -/
def threadBlocks (t : String) : List AppendOp → ℕ → List (String × List Row)
  | [], _ => []
  | a :: rest, n =>
    if a.thread_id == t then
      (a.interaction_id, appendRows a n a.messages)
        :: threadBlocks t rest (n + a.messages.length)
    else threadBlocks t rest (n + a.messages.length)

theorem appendRows_length (a : AppendOp) :
    ∀ (ps : List Payload) (n : ℕ), (appendRows a n ps).length = ps.length := by
  intro ps
  induction ps with
  | nil => intro n; rfl
  | cons p rest ih => intro n; simp [appendRows, ih]

theorem appendRows_map_message (a : AppendOp) :
    ∀ (ps : List Payload) (n : ℕ), (appendRows a n ps).map Row.message = ps := by
  intro ps
  induction ps with
  | nil => intro n; rfl
  | cons p rest ih => intro n; simp [appendRows, ih]

theorem appendRows_mem (a : AppendOp) :
    ∀ {ps : List Payload} {n : ℕ} {r : Row}, r ∈ appendRows a n ps →
      r.thread_id = a.thread_id ∧ r.interaction_id = some a.interaction_id ∧
        n ≤ r.created_at ∧ r.created_at < n + ps.length := by
  intro ps
  induction ps with
  | nil => intro n r h; cases h
  | cons p rest ih =>
    intro n r h
    rcases List.mem_cons.mp h with rfl | h
    · exact ⟨rfl, rfl, Nat.le_refl n, by simp⟩
    · obtain ⟨h1, h2, h3, h4⟩ := ih h
      exact ⟨h1, h2, by omega, by simp; omega⟩

theorem appendRows_pairwise (a : AppendOp) :
    ∀ (ps : List Payload) (n : ℕ),
      (appendRows a n ps).Pairwise (fun r1 r2 => r1.created_at < r2.created_at) := by
  intro ps
  induction ps with
  | nil => intro n; exact List.Pairwise.nil
  | cons p rest ih =>
    intro n
    refine List.Pairwise.cons ?_ (ih (n + 1))
    intro r hr
    have := (appendRows_mem a hr).2.2.1
    simpa using this

theorem buildDb_mem_ts :
    ∀ (appends : List AppendOp) (n : ℕ) (r : Row), r ∈ buildDb appends n →
      n ≤ r.created_at := by
  intro appends
  induction appends with
  | nil => intro n r h; cases h
  | cons a rest ih =>
    intro n r h
    rcases List.mem_append.mp h with h | h
    · exact (appendRows_mem a h).2.2.1
    · have := ih _ r h
      omega

theorem buildDb_pairwise :
    ∀ (appends : List AppendOp) (n : ℕ),
      (buildDb appends n).Pairwise (fun r1 r2 => r1.created_at < r2.created_at) := by
  intro appends
  induction appends with
  | nil => intro n; exact List.Pairwise.nil
  | cons a rest ih =>
    intro n
    rw [buildDb]
    refine List.pairwise_append.mpr ⟨appendRows_pairwise a a.messages n, ih _, ?_⟩
    intro r1 h1 r2 h2
    have hb1 := (appendRows_mem a h1).2.2.2
    have hb2 := buildDb_mem_ts rest _ r2 h2
    omega

theorem appendRows_filter_pos (a : AppendOp) (t : String)
    (h : (a.thread_id == t) = true) (ps : List Payload) (n : ℕ) :
    (appendRows a n ps).filter (fun r => r.thread_id == t) = appendRows a n ps := by
  apply List.filter_eq_self.mpr
  intro r hr
  rw [(appendRows_mem a hr).1]
  exact h

theorem appendRows_filter_neg (a : AppendOp) (t : String)
    (h : ¬ (a.thread_id == t) = true) (ps : List Payload) (n : ℕ) :
    (appendRows a n ps).filter (fun r => r.thread_id == t) = [] := by
  apply List.filter_eq_nil_iff.mpr
  intro r hr
  rw [(appendRows_mem a hr).1]
  exact h

theorem buildDb_filter (t : String) :
    ∀ (appends : List AppendOp) (n : ℕ),
      (buildDb appends n).filter (fun r => r.thread_id == t)
        = ((threadBlocks t appends n).map Prod.snd).flatten := by
  intro appends
  induction appends with
  | nil => intro n; rfl
  | cons a rest ih =>
    intro n
    rw [buildDb, List.filter_append, threadBlocks]
    by_cases h : (a.thread_id == t) = true
    · rw [if_pos h, appendRows_filter_pos a t h, List.map_cons, List.flatten_cons, ih]
    · rw [if_neg h, appendRows_filter_neg a t h, ih, List.nil_append]

/-! #### Grouping a concatenation of fresh-id blocks -/

theorem insertGroup_fresh (iid : String) (r : Row) :
    ∀ (gs : List (String × List Row)), (∀ p ∈ gs, p.1 ≠ iid) →
      insertGroup gs iid r = gs ++ [(iid, [r])] := by
  intro gs
  induction gs with
  | nil => intro _; rfl
  | cons g rest ih =>
    intro h
    cases g with
    | mk k rs =>
      rw [insertGroup, if_neg (by exact fun hk => h (k, rs) (List.mem_cons_self _ _) hk)]
      rw [ih (fun p hp => h p (List.mem_cons_of_mem _ hp))]
      rfl

theorem insertGroup_last (iid : String) (r : Row) (rs : List Row) :
    ∀ (gs : List (String × List Row)), (∀ p ∈ gs, p.1 ≠ iid) →
      insertGroup (gs ++ [(iid, rs)]) iid r = gs ++ [(iid, rs ++ [r])] := by
  intro gs
  induction gs with
  | nil => intro _; simp [insertGroup]
  | cons g rest ih =>
    intro h
    cases g with
    | mk k gr =>
      rw [List.cons_append, insertGroup,
        if_neg (by exact fun hk => h (k, gr) (List.mem_cons_self _ _) hk),
        ih (fun p hp => h p (List.mem_cons_of_mem _ hp))]
      rfl

theorem fold_block_cont (iid : String) :
    ∀ (rows : List Row) (gs : List (String × List Row)) (st : List Row)
      (rs : List Row),
      (∀ r ∈ rows, truthyIid r = some iid) → (∀ p ∈ gs, p.1 ≠ iid) →
      List.foldl groupStep (gs ++ [(iid, rs)], st) rows
        = (gs ++ [(iid, rs ++ rows)], st) := by
  intro rows
  induction rows with
  | nil => intro gs st rs _ _; simp
  | cons r rest ih =>
    intro gs st rs hrows hfresh
    rw [List.foldl_cons]
    have hstep : groupStep (gs ++ [(iid, rs)], st) r
        = (gs ++ [(iid, rs ++ [r])], st) := by
      rw [groupStep, hrows r (List.mem_cons_self _ _)]
      simp only
      rw [insertGroup_last iid r rs gs hfresh]
    rw [hstep, ih gs st (rs ++ [r]) (fun x hx => hrows x (List.mem_cons_of_mem _ hx)) hfresh]
    simp

theorem fold_block (iid : String) :
    ∀ (rows : List Row) (gs : List (String × List Row)) (st : List Row),
      rows ≠ [] → (∀ r ∈ rows, truthyIid r = some iid) →
      (∀ p ∈ gs, p.1 ≠ iid) →
      List.foldl groupStep (gs, st) rows = (gs ++ [(iid, rows)], st) := by
  intro rows gs st hne hrows hfresh
  cases rows with
  | nil => exact absurd rfl hne
  | cons r rest =>
    rw [List.foldl_cons]
    have hstep : groupStep (gs, st) r = (gs ++ [(iid, [r])], st) := by
      rw [groupStep, hrows r (List.mem_cons_self _ _)]
      simp only
      rw [insertGroup_fresh iid r gs hfresh]
    rw [hstep, fold_block_cont iid rest gs st [r]
      (fun x hx => hrows x (List.mem_cons_of_mem _ hx)) hfresh]
    rfl

theorem groupRows_blocks :
    ∀ (blocks : List (String × List Row)) (gs : List (String × List Row))
      (st : List Row),
      (∀ b ∈ blocks, b.2 ≠ [] ∧ ∀ r ∈ b.2, truthyIid r = some b.1) →
      (∀ b ∈ blocks, ∀ p ∈ gs, p.1 ≠ b.1) →
      (blocks.map Prod.fst).Nodup →
      List.foldl groupStep (gs, st) ((blocks.map Prod.snd).flatten)
        = (gs ++ blocks, st) := by
  intro blocks
  induction blocks with
  | nil => intro gs st _ _ _; simp
  | cons b rest ih =>
    intro gs st hblocks hfresh hnodup
    rw [List.map_cons, List.flatten_cons, List.foldl_append]
    obtain ⟨hbne, hbid⟩ := hblocks b (List.mem_cons_self _ _)
    rw [fold_block b.1 b.2 gs st hbne hbid (hfresh b (List.mem_cons_self _ _))]
    rw [List.map_cons] at hnodup
    have hnd := List.nodup_cons.mp hnodup
    rw [ih (gs ++ [b]) st
      (fun x hx => hblocks x (List.mem_cons_of_mem _ hx))
      (fun x hx p hp => by
        rcases List.mem_append.mp hp with hg | hg
        · exact hfresh x (List.mem_cons_of_mem _ hx) p hg
        · rw [List.mem_singleton.mp hg]
          intro hcontra
          exact hnd.1 (List.mem_map.mpr ⟨x, hx, hcontra.symm⟩))
      hnd.2]
    simp

theorem threadBlocks_facts (t : String) :
    ∀ (appends : List AppendOp) (n : ℕ),
      (∀ a ∈ appends, a.interaction_id ≠ "" ∧ a.messages ≠ []) →
      ∀ b ∈ threadBlocks t appends n,
        b.2 ≠ [] ∧ ∀ r ∈ b.2, truthyIid r = some b.1 := by
  intro appends
  induction appends with
  | nil => intro n _ b hb; cases hb
  | cons a rest ih =>
    intro n hne b hb
    rw [threadBlocks] at hb
    have hrest := ih (n + a.messages.length)
      (fun x hx => hne x (List.mem_cons_of_mem _ hx))
    by_cases h : (a.thread_id == t) = true
    · rw [if_pos h] at hb
      rcases List.mem_cons.mp hb with rfl | hb
      · obtain ⟨hid, hmsgs⟩ := hne a (List.mem_cons_self _ _)
        constructor
        · intro hnil
          have hl := appendRows_length a a.messages n
          rw [show appendRows a n a.messages = [] from hnil] at hl
          exact hmsgs (List.length_eq_zero.mp hl.symm)
        · intro r hr
          have hiid := (appendRows_mem a hr).2.1
          rw [truthyIid, hiid]
          simp [hid]
      · exact hrest b hb
    · rw [if_neg h] at hb
      exact hrest b hb

theorem threadBlocks_mem_ts (t : String) :
    ∀ (appends : List AppendOp) (n : ℕ) (b : String × List Row) (r : Row),
      b ∈ threadBlocks t appends n → r ∈ b.2 → n ≤ r.created_at := by
  intro appends
  induction appends with
  | nil => intro n b r hb _; cases hb
  | cons a rest ih =>
    intro n b r hb hr
    rw [threadBlocks] at hb
    have hstep : ∀ hb' : b ∈ threadBlocks t rest (n + a.messages.length),
        n ≤ r.created_at := by
      intro hb'
      have := ih (n + a.messages.length) b r hb' hr
      omega
    by_cases h : (a.thread_id == t) = true
    · rw [if_pos h] at hb
      rcases List.mem_cons.mp hb with rfl | hb
      · exact (appendRows_mem a hr).2.2.1
      · exact hstep hb
    · rw [if_neg h] at hb
      exact hstep hb

theorem threadBlocks_keys (t : String) :
    ∀ (appends : List AppendOp) (n : ℕ),
      (threadBlocks t appends n).map Prod.fst
        = (appends.filter (fun a => a.thread_id == t)).map AppendOp.interaction_id := by
  intro appends
  induction appends with
  | nil => intro n; rfl
  | cons a rest ih =>
    intro n
    rw [threadBlocks, List.filter_cons]
    by_cases h : (a.thread_id == t) = true
    · rw [if_pos h, if_pos h, List.map_cons, List.map_cons, ih]
    · rw [if_neg h, if_neg h, ih]

/-- The sort key of an interaction built from a nonempty group is the first
row's timestamp plus one. -/
theorem createdKey_group (t : String) :
    ∀ (b : String × List Row), b.2 ≠ [] →
      ∃ r, b.2.head? = some r ∧ r ∈ b.2 ∧
        createdKey (interactionOfGroup t b) = r.created_at + 1 := by
  rintro ⟨k, rows⟩ hne
  cases rows with
  | nil => exact absurd rfl hne
  | cons r rest =>
    exact ⟨r, rfl, List.mem_cons_self _ _, by simp [createdKey, interactionOfGroup]⟩

theorem threadBlocks_key_pairwise (t : String) :
    ∀ (appends : List AppendOp) (n : ℕ),
      (∀ a ∈ appends, a.interaction_id ≠ "" ∧ a.messages ≠ []) →
      (threadBlocks t appends n).Pairwise (fun b1 b2 =>
        createdKey (interactionOfGroup t b1) < createdKey (interactionOfGroup t b2)) := by
  intro appends
  induction appends with
  | nil => intro n _; exact List.Pairwise.nil
  | cons a rest ih =>
    intro n hne
    rw [threadBlocks]
    have hrest := ih (n + a.messages.length)
      (fun x hx => hne x (List.mem_cons_of_mem _ hx))
    by_cases h : (a.thread_id == t) = true
    · rw [if_pos h]
      refine List.Pairwise.cons ?_ hrest
      intro b2 hb2
      obtain ⟨hid, hmsgs⟩ := hne a (List.mem_cons_self _ _)
      have hbne : (a.interaction_id, appendRows a n a.messages).2 ≠ [] := by
        intro hnil
        have hl := appendRows_length a a.messages n
        rw [show appendRows a n a.messages = [] from hnil] at hl
        exact hmsgs (List.length_eq_zero.mp hl.symm)
      obtain ⟨r1, -, hr1mem, hkey1⟩ :=
        createdKey_group t (a.interaction_id, appendRows a n a.messages) hbne
      have hr1mem : r1 ∈ appendRows a n a.messages := hr1mem
      have hb2ne := ((threadBlocks_facts t rest (n + a.messages.length)
        (fun x hx => hne x (List.mem_cons_of_mem _ hx))) b2 hb2).1
      obtain ⟨r2, -, hr2mem, hkey2⟩ := createdKey_group t b2 hb2ne
      have hub : r1.created_at < n + a.messages.length :=
        (appendRows_mem a hr1mem).2.2.2
      have hlb : n + a.messages.length ≤ r2.created_at :=
        threadBlocks_mem_ts t rest (n + a.messages.length) b2 r2 hb2 hr2mem
      rw [hkey1, hkey2]
      omega
    · rw [if_neg h]
      exact hrest

theorem threadBlocks_forall₂ (t : String) :
    ∀ (appends : List AppendOp) (n : ℕ),
      List.Forall₂ (fun a b => b.1 = a.interaction_id ∧ b.2.map Row.message = a.messages)
        (appends.filter (fun a => a.thread_id == t)) (threadBlocks t appends n) := by
  intro appends
  induction appends with
  | nil => intro n; exact List.Forall₂.nil
  | cons a rest ih =>
    intro n
    rw [threadBlocks, List.filter_cons]
    by_cases h : (a.thread_id == t) = true
    · rw [if_pos h, if_pos h]
      exact List.Forall₂.cons ⟨rfl, appendRows_map_message a a.messages n⟩ (ih _)
    · rw [if_neg h, if_neg h]
      exact ih _

/-- `get_all_interactions` on an interleaved append database: one interaction
per matching append, in append order. -/
theorem get_all_buildDb (t : String) (appends : List AppendOp)
    (hnodup : (appends.map AppendOp.interaction_id).Nodup)
    (hne : ∀ a ∈ appends, a.interaction_id ≠ "" ∧ a.messages ≠ []) :
    get_all_interactions (buildDb appends 0) t
      = (threadBlocks t appends 0).map (interactionOfGroup t) := by
  have hpw : ((buildDb appends 0).filter (fun r => r.thread_id == t)).Pairwise
      (fun r1 r2 => r1.created_at < r2.created_at) :=
    (buildDb_pairwise appends 0).sublist (List.filter_sublist _)
  have hsorted : List.Sorted (fun (a b : Row) => a.created_at ≤ b.created_at)
      ((buildDb appends 0).filter (fun r => r.thread_id == t)) :=
    hpw.imp (fun h => le_of_lt h)
  have hkeysnd : ((threadBlocks t appends 0).map Prod.fst).Nodup := by
    rw [threadBlocks_keys]
    exact hnodup.sublist ((List.filter_sublist _).map _)
  have hgroup : groupRows ((threadBlocks t appends 0).map Prod.snd).flatten
      = (threadBlocks t appends 0, []) := by
    rw [groupRows]
    have := groupRows_blocks (threadBlocks t appends 0) [] []
      (threadBlocks_facts t appends 0 hne)
      (fun b _ p hp => absurd hp (List.not_mem_nil p))
      hkeysnd
    simpa using this
  rw [get_all_interactions, List.Sorted.insertionSort_eq hsorted,
    buildDb_filter t appends 0, hgroup]
  simp only [List.map_nil, List.append_nil]
  apply List.Sorted.insertionSort_eq
  rw [List.Sorted, List.pairwise_map]
  exact (threadBlocks_key_pairwise t appends 0 hne).imp (fun h => le_of_lt h)

/-- C8: for any interleaved append sequence (fresh non-empty interaction ids,
non-empty message lists, strictly increasing timestamps as modelled by
`buildDb`) and any `limit` at least the thread's interaction count,
`get_recent_interactions` returns exactly that thread's interactions, in
original creation order, each carrying exactly its appended messages in
insertion order. -/
theorem C8_thread_isolation (appends : List AppendOp) (t : String) (limit : ℤ)
    (hnodup : (appends.map AppendOp.interaction_id).Nodup)
    (hne : ∀ a ∈ appends, a.interaction_id ≠ "" ∧ a.messages ≠ [])
    (hlimit : ((appends.filter (fun a => a.thread_id == t)).length : ℤ) ≤ limit) :
    (get_recent_interactions (buildDb appends 0) t limit).map MHInteraction.interaction_id
      = (appends.filter (fun a => a.thread_id == t)).map AppendOp.interaction_id ∧
    List.Forall₂ (fun a i => i.messages.map Row.message = a.messages)
      (appends.filter (fun a => a.thread_id == t))
      (get_recent_interactions (buildDb appends 0) t limit) := by
  have hall := get_all_buildDb t appends hnodup hne
  have hf2 := threadBlocks_forall₂ t appends 0
  have hlen : (threadBlocks t appends 0).length
      = (appends.filter (fun a => a.thread_id == t)).length := hf2.length_eq.symm
  have hcount : ((get_all_interactions (buildDb appends 0) t).length : ℤ) ≤ limit := by
    rw [hall, List.length_map, hlen]
    exact hlimit
  rw [get_recent_all hcount, hall]
  constructor
  · rw [List.map_map]
    have hcomp : (MHInteraction.interaction_id ∘ interactionOfGroup t)
        = Prod.fst (α := String) (β := List Row) := rfl
    rw [hcomp, threadBlocks_keys]
  · refine List.forall₂_map_right_iff.mpr (hf2.imp ?_)
    intro a b hab
    exact hab.2

/-- An empty payload used by concrete witnesses. -/
def wPayload : Payload := ⟨none, []⟩

/-- Interleaved appends across threads `"t1"` and `"t2"`. -/
def wAppends : List AppendOp :=
  [⟨"t1", "i1", [wPayload]⟩, ⟨"t2", "i2", [wPayload]⟩,
   ⟨"t1", "i3", [wPayload, wPayload]⟩]

/-- Witness for C8 at a concrete interleaved append sequence. -/
theorem C8_witness :
    (get_recent_interactions (buildDb wAppends 0) "t1" 5).map MHInteraction.interaction_id
      = (wAppends.filter (fun a => a.thread_id == "t1")).map AppendOp.interaction_id ∧
    List.Forall₂ (fun a i => i.messages.map Row.message = a.messages)
      (wAppends.filter (fun a => a.thread_id == "t1"))
      (get_recent_interactions (buildDb wAppends 0) "t1" 5) :=
  C8_thread_isolation wAppends "t1" 5 (by decide) (by decide) (by decide)

end Shellbot
